import Mathlib

/-!
Verification of the CSV-to-MongoDB ingestion pipeline in
`src/Tool/data_store.py` (class `CsvToMongoDB`).

The pure core of the pipeline is embedded here:

* `pyIndex` embeds Python's `list.index` (first occurrence, `none` on the
  `ValueError` path);
* `dictInsert` / `pyDict` embed Python `dict` construction from a list of
  key/value pairs (`dict(zip(header, values))`): inserting an existing key
  keeps its original position and overwrites its value, a fresh key is
  appended;
* `set_fields` embeds `CsvToMongoDB.set_fields`;
* `resolveProjection` embeds the `field_allowed` computation at the top of
  `CsvToMongoDB.insert_data` (lines 130-139 of the source);
* `projectRow` embeds `[row[i] for i in field_allowed]`;
* `ingestAux` / `insert_data` embed the buffered row loop of
  `CsvToMongoDB.insert_data`: the value returned is the list of bulk-write
  batches in the order they are issued, together with the row counter;
* `auto_insert` embeds `CsvToMongoDB.auto_insert`, iterating `insert_data`
  over the registered collections and stopping at a first failure, the way a
  propagating Python exception would.

File I/O, the MongoDB client and logging are external collaborators; the
embedding takes the parsed CSV content (header and data rows) as input and
returns the batches that would be handed to `bulk_write`.  Python exceptions
are embedded as `Except String` errors carrying the exact message the source
raises (`ValueError("指定的字段不存在")`, `IndexError("list index out of range")`).
-/

namespace DataStore

/-- A MongoDB document: key/value pairs in insertion order, keys unique. -/
abbrev Doc := List (String × String)

/-- Python `list.index(x)`: the first index of `x`, `none` when absent
(where CPython raises `ValueError`). -/
def pyIndex (l : List String) (x : String) : Option Nat :=
  match l with
  | [] => none
  | y :: ys => if y = x then some 0 else (pyIndex ys x).map (· + 1)

/-- Whether the document already has an entry with key `k`. -/
def hasKey (d : Doc) (k : String) : Bool :=
  (d.map Prod.fst).contains k

/-- Python `d[k] = v` on a dict: an existing key keeps its position and gets
the new value, a fresh key is appended at the end. -/
def dictInsert (d : Doc) (k v : String) : Doc :=
  if hasKey d k then d.map (fun p => if p.1 = k then (k, v) else p)
  else d ++ [(k, v)]

/-- Python `dict(pairs)`: left-to-right insertion into an empty dict. -/
def pyDict (pairs : List (String × String)) : Doc :=
  pairs.foldl (fun d p => dictInsert d p.1 p.2) []

/-- Python `d.get(k)`-style lookup on the embedded dict. -/
def pyLookup (d : Doc) (k : String) : Option String :=
  match d with
  | [] => none
  | (k', v) :: rest => if k' = k then some v else pyLookup rest k

/-- The mutable fields of a `CsvToMongoDB` object that the claims are about:
the currently selected target collection name and the two projection lists
set by `set_fields` (initialised to `""`, `[]`, `[]` in `__init__`). -/
structure CsvToMongoDB where
  target_col_name : String
  selected_fields : List String
  removed_fields : List String
deriving Repr, DecidableEq

/-- The message of the `SyntaxError` raised by `set_fields`. -/
def mutualExclusionMsg : String := "需要保留的字段和需要删除的字段不能同时给出！"

/-- The message of the `ValueError` raised by `insert_data` when a projected
field is absent from the header. -/
def fieldMissingMsg : String := "指定的字段不存在"

/-- The message of the `IndexError` raised by `row[i]` on a short row. -/
def indexErrorMsg : String := "list index out of range"

/-- Embeds `CsvToMongoDB.set_fields(fields_needed, fields_removed)`.  Returns
the object state after the call together with the raised exception's message,
if any; a raise leaves the state untouched, since the source raises before
assigning either field.  `None` arguments are embedded as `[]`, which Python
truthiness makes equivalent. -/
def set_fields (st : CsvToMongoDB) (fields_needed fields_removed : List String) :
    CsvToMongoDB × Option String :=
  if fields_needed ≠ [] ∧ fields_removed ≠ [] then (st, some mutualExclusionMsg)
  else if fields_needed = [] ∧ fields_removed = [] then (st, none)
  else if fields_needed ≠ [] then ({ st with selected_fields := fields_needed }, none)
  else ({ st with removed_fields := fields_removed }, none)

/-- Embeds the include-path loop of `insert_data`: `header.index(field)` for
each requested field, aborting with `ValueError("指定的字段不存在")` as soon as a
lookup fails. -/
def lookupIndices (header : List String) : List String → Except String (List Nat)
  | [] => .ok []
  | f :: fs =>
    match pyIndex header f with
    | none => .error fieldMissingMsg
    | some i =>
      match lookupIndices header fs with
      | .error e => .error e
      | .ok is => .ok (i :: is)

/-- Embeds the `field_allowed` computation of `insert_data` (source lines
130-139): start from all column indices, then either follow the include list
(indices in the include list's order) or filter out the excluded columns'
first-occurrence indices.  In the exclude branch the inner
`[header.index(field) for field in self.removed_fields]` is evaluated once
per retained candidate index, so with an empty header it is never evaluated
and no `ValueError` can arise. -/
def resolveProjection (header sel rem : List String) : Except String (List Nat) :=
  if sel ≠ [] then lookupIndices header sel
  else if rem ≠ [] then
    if header.length = 0 then .ok []
    else
      match lookupIndices header rem with
      | .error e => .error e
      | .ok remIdxs =>
        .ok ((List.range header.length).filter (fun i => !(remIdxs.contains i)))
  else .ok (List.range header.length)

/-- Embeds `[row[i] for i in field_allowed]`: Python raises
`IndexError("list index out of range")` at the first out-of-range index. -/
def projectRow (row : List String) : List Nat → Except String (List String)
  | [] => .ok []
  | i :: is =>
    match row.get? i with
    | none => .error indexErrorMsg
    | some v =>
      match projectRow row is with
      | .error e => .error e
      | .ok vs => .ok (v :: vs)

/-- Embeds the buffered row loop of `insert_data`: `ph` is the projected
header, `idxs` the resolved column indices, `bsize` the buffer size.  The
accumulators carry the bulk-write batches already issued, the pending buffer
and the row counter; the loop flushes the buffer whenever it reaches
`bsize` documents. -/
def ingestAux (ph : List String) (idxs : List Nat) (bsize : Nat) :
    List (List String) → List (List Doc) → List Doc → Nat →
    Except String (List (List Doc) × List Doc × Nat)
  | [], batches, buffer, counter => .ok (batches, buffer, counter)
  | r :: rs, batches, buffer, counter =>
    match projectRow r idxs with
    | .error e => .error e
    | .ok vals =>
      let doc := pyDict (ph.zip vals)
      let buffer' := buffer ++ [doc]
      if bsize ≤ buffer'.length then
        ingestAux ph idxs bsize rs (batches ++ [buffer']) [] (counter + 1)
      else
        ingestAux ph idxs bsize rs batches buffer' (counter + 1)

/-- Embeds `CsvToMongoDB.insert_data` for one collection, given the object's
projection fields and the parsed CSV content.  Returns the sequence of
batches handed to `bulk_write`, in issue order, and the final row counter;
an uncaught Python exception becomes an `Except.error` with its message. -/
def insert_data (sel rem : List String) (header : List String)
    (rows : List (List String)) (bsize : Nat) :
    Except String (List (List Doc) × Nat) :=
  match resolveProjection header sel rem with
  | .error e => .error e
  | .ok idxs =>
    let ph := idxs.map (fun i => header.getD i "")
    match ingestAux ph idxs bsize rows [] [] 0 with
    | .error e => .error e
    | .ok (batches, buffer, counter) =>
      .ok (if buffer = [] then batches else batches ++ [buffer], counter)

/-- Embeds `insert_data` at the object level: `set_target_col` updates the
target name, the projection fields are read but never written. -/
def insert_dataSt (st : CsvToMongoDB) (col : String) (header : List String)
    (rows : List (List String)) (bsize : Nat) :
    CsvToMongoDB × Except String (List (List Doc) × Nat) :=
  ({ st with target_col_name := col },
   insert_data st.selected_fields st.removed_fields header rows bsize)

/-- Embeds `CsvToMongoDB.auto_insert`: run `insert_data` (with the default
buffer size 10000) over every registered collection in order; a raised
exception aborts the remaining collections, the way the uncaught Python
exception would propagate out of the loop. -/
def auto_insert (st : CsvToMongoDB) :
    List (String × List String × List (List String)) →
    CsvToMongoDB × List (Except String (List (List Doc) × Nat))
  | [] => (st, [])
  | (name, header, rows) :: rest =>
    match insert_data st.selected_fields st.removed_fields header rows 10000 with
    | .error e => ({ st with target_col_name := name }, [.error e])
    | .ok r =>
      ((auto_insert { st with target_col_name := name } rest).1,
       .ok r :: (auto_insert { st with target_col_name := name } rest).2)

/-! Basic lemmas about `pyIndex` (Python `list.index`). -/

theorem pyIndex_lt {l : List String} {x : String} {i : Nat}
    (h : pyIndex l x = some i) : i < l.length := by
  induction l generalizing i with
  | nil => simp [pyIndex] at h
  | cons y ys ih =>
    by_cases hyx : y = x
    · simp [pyIndex, hyx] at h
      simp [List.length_cons]
      omega
    · simp [pyIndex, hyx] at h
      obtain ⟨j, hj, rfl⟩ := h
      have := ih hj
      simp [List.length_cons]
      omega

theorem pyIndex_getD {l : List String} {x : String} {i : Nat}
    (h : pyIndex l x = some i) : l.getD i "" = x := by
  induction l generalizing i with
  | nil => simp [pyIndex] at h
  | cons y ys ih =>
    by_cases hyx : y = x
    · simp [pyIndex, hyx] at h
      simp [← h, hyx]
    · simp [pyIndex, hyx] at h
      obtain ⟨j, hj, rfl⟩ := h
      simpa using ih hj

theorem pyIndex_of_mem {l : List String} {x : String} (h : x ∈ l) :
    ∃ i, pyIndex l x = some i := by
  induction l with
  | nil => simp at h
  | cons y ys ih =>
    by_cases hyx : y = x
    · exact ⟨0, by simp [pyIndex, hyx]⟩
    · have hx : x ∈ ys := by
        rcases List.mem_cons.mp h with h' | h'
        · exact absurd h'.symm hyx
        · exact h'
      obtain ⟨i, hi⟩ := ih hx
      exact ⟨i + 1, by simp [pyIndex, hyx, hi]⟩

theorem pyIndex_none_of_not_mem {l : List String} {x : String} (h : x ∉ l) :
    pyIndex l x = none := by
  induction l with
  | nil => simp [pyIndex]
  | cons y ys ih =>
    have hyx : y ≠ x := fun hc => h (hc ▸ List.mem_cons_self y ys)
    have hx : x ∉ ys := fun hc => h (List.mem_cons_of_mem _ hc)
    simp [pyIndex, hyx, ih hx]

/-! Lemmas about `lookupIndices` (the include-path lookup loop). -/

theorem lookupIndices_ok_of_mem {header : List String} :
    ∀ {fs : List String}, (∀ f ∈ fs, f ∈ header) →
    ∃ is, lookupIndices header fs = .ok is ∧
      is.map (fun i => header.getD i "") = fs := by
  intro fs
  induction fs with
  | nil => intro _; exact ⟨[], rfl, rfl⟩
  | cons f fs ih =>
    intro hmem
    obtain ⟨i, hi⟩ := pyIndex_of_mem (hmem f (List.mem_cons_self f fs))
    obtain ⟨is, his, hmap⟩ := ih (fun g hg => hmem g (List.mem_cons_of_mem _ hg))
    refine ⟨i :: is, ?_, ?_⟩
    · simp [lookupIndices, hi, his]
    · rw [List.map_cons, hmap, pyIndex_getD hi]

theorem lookupIndices_error_of_missing {header : List String} :
    ∀ {fs : List String}, (∃ f ∈ fs, f ∉ header) →
    lookupIndices header fs = .error fieldMissingMsg := by
  intro fs
  induction fs with
  | nil => rintro ⟨f, hf, _⟩; simp at hf
  | cons g fs ih =>
    rintro ⟨f, hf, hfh⟩
    rcases List.mem_cons.mp hf with rfl | hf'
    · simp [lookupIndices, pyIndex_none_of_not_mem hfh]
    · cases hg : pyIndex header g with
      | none => simp [lookupIndices, hg]
      | some i => simp [lookupIndices, hg, ih ⟨f, hf', hfh⟩]

theorem lookupIndices_lt {header : List String} :
    ∀ {fs : List String} {is : List Nat},
    lookupIndices header fs = .ok is → ∀ i ∈ is, i < header.length := by
  intro fs
  induction fs with
  | nil =>
    intro is h
    simp [lookupIndices] at h
    subst h
    intro i hi
    simp at hi
  | cons f fs ih =>
    intro is h
    cases hf : pyIndex header f with
    | none => simp [lookupIndices, hf] at h
    | some j =>
      cases hrest : lookupIndices header fs with
      | error e => simp [lookupIndices, hf, hrest] at h
      | ok js =>
        simp [lookupIndices, hf, hrest] at h
        subst h
        intro i hi
        rcases List.mem_cons.mp hi with rfl | hi'
        · exact pyIndex_lt hf
        · exact ih hrest i hi'

/-! ## C1: include-list projection round-trip -/

/-- C1: for every header `H` and supplied (hence non-empty, by Python
truthiness) include-list `I` whose every name occurs in `H`, resolving the
projection with include-list `I` and empty exclude-list succeeds, and mapping
the returned column indices back through `H` reproduces `I` exactly, in `I`'s
given order. -/
theorem C1_include_roundtrip (H I : List String) (hne : I ≠ [])
    (hmem : ∀ f ∈ I, f ∈ H) :
    ∃ idxs, resolveProjection H I [] = .ok idxs ∧
      idxs.map (fun i => H.getD i "") = I := by
  obtain ⟨is, his, hmap⟩ := lookupIndices_ok_of_mem hmem
  exact ⟨is, by simp [resolveProjection, hne, his], hmap⟩

/-- Witness for C1 at header `["id","name"]` and include-list `["name","id"]`. -/
theorem C1_include_roundtrip_witness :
    ∃ idxs, resolveProjection ["id", "name"] ["name", "id"] [] = .ok idxs ∧
      idxs.map (fun i => (["id", "name"]).getD i "") = ["name", "id"] :=
  C1_include_roundtrip ["id", "name"] ["name", "id"] (by decide)
    (by intro f hf; fin_cases hf <;> decide)

theorem lookupIndices_mem_src {header : List String} :
    ∀ {fs : List String} {is : List Nat}, lookupIndices header fs = .ok is →
    ∀ i ∈ is, ∃ f ∈ fs, pyIndex header f = some i := by
  intro fs
  induction fs with
  | nil =>
    intro is h
    simp [lookupIndices] at h
    subst h
    intro i hi
    simp at hi
  | cons f fs ih =>
    intro is h
    cases hf : pyIndex header f with
    | none => simp [lookupIndices, hf] at h
    | some j =>
      cases hrest : lookupIndices header fs with
      | error e => simp [lookupIndices, hf, hrest] at h
      | ok js =>
        simp [lookupIndices, hf, hrest] at h
        subst h
        intro i hi
        rcases List.mem_cons.mp hi with rfl | hi'
        · exact ⟨f, List.mem_cons_self f fs, hf⟩
        · obtain ⟨g, hg, hgi⟩ := ih hrest i hi'
          exact ⟨g, List.mem_cons_of_mem _ hg, hgi⟩

theorem lookupIndices_mem_tgt {header : List String} :
    ∀ {fs : List String} {is : List Nat}, lookupIndices header fs = .ok is →
    ∀ f ∈ fs, ∀ i, pyIndex header f = some i → i ∈ is := by
  intro fs
  induction fs with
  | nil =>
    rintro is h f hf
    simp at hf
  | cons g fs ih =>
    intro is h f hf i hfi
    cases hg : pyIndex header g with
    | none => simp [lookupIndices, hg] at h
    | some j =>
      cases hrest : lookupIndices header fs with
      | error e => simp [lookupIndices, hg, hrest] at h
      | ok js =>
        simp [lookupIndices, hg, hrest] at h
        subst h
        rcases List.mem_cons.mp hf with rfl | hf'
        · rw [hg] at hfi
          exact (Option.some_inj.mp hfi) ▸ List.mem_cons_self j js
        · exact List.mem_cons_of_mem _ (ih hrest f hf' i hfi)

/-- On a duplicate-free header, membership of a valid column index in the
excluded-index list coincides with membership of that column's name in the
exclude-list. -/
theorem contains_lookupIndices_eq {H E : List String} {remIdxs : List Nat}
    (hnd : H.Nodup) (hok : lookupIndices H E = .ok remIdxs)
    {i : Nat} (hi : i < H.length) :
    remIdxs.contains i = E.contains (H.getD i "") := by
  have hiff : i ∈ remIdxs ↔ H.getD i "" ∈ E := by
    constructor
    · intro hmem
      obtain ⟨f, hf, hpi⟩ := lookupIndices_mem_src hok i hmem
      rw [pyIndex_getD hpi]
      exact hf
    · intro hmem
      have hfH : H.getD i "" ∈ H := by
        rw [List.getD_eq_getElem _ _ hi]
        exact List.getElem_mem hi
      obtain ⟨j, hj⟩ := pyIndex_of_mem hfH
      have hji : j = i := by
        have hjlt : j < H.length := pyIndex_lt hj
        have hgd : H.getD j "" = H.getD i "" := pyIndex_getD hj
        rw [List.getD_eq_getElem _ _ hjlt, List.getD_eq_getElem _ _ hi] at hgd
        exact (hnd.getElem_inj_iff).mp hgd
      exact lookupIndices_mem_tgt hok _ hmem i (hji ▸ hj)
  simpa [List.contains] using hiff

/-- Selecting from a list by filtered positions is filtering the list. -/
theorem map_getD_filter_range :
    ∀ (H : List String) (p : String → Bool),
    ((List.range H.length).filter (fun i => p (H.getD i ""))).map
        (fun i => H.getD i "") = H.filter p := by
  intro H
  induction H with
  | nil => intro p; rfl
  | cons h t ih =>
    intro p
    rw [List.length_cons, List.range_succ_eq_map, List.filter_cons, List.filter_map]
    have hcomp : ((fun i => p ((h :: t).getD i "")) ∘ Nat.succ) =
        (fun i => p (t.getD i "")) := by
      funext i
      simp
    rw [hcomp]
    by_cases ph : p h
    · simp only [List.getD_cons_zero, ph, if_true, List.map_cons, List.map_map]
      have hcomp2 : ((fun i => (h :: t).getD i "") ∘ Nat.succ) =
          (fun i => t.getD i "") := by
        funext i
        simp
      rw [hcomp2, ih, List.filter_cons, ph]
      simp
    · rw [if_neg (by simpa using ph), List.map_map]
      have hcomp2 : ((fun i => (h :: t).getD i "") ∘ Nat.succ) =
          (fun i => t.getD i "") := by
        funext i
        simp
      rw [hcomp2, ih, List.filter_cons]
      simp [ph]

/-! ## C2: exclude-list projection -/

/-- C2 as stated is refuted by a header with a duplicated name: excluding
`"a"` from `["a", "b", "a"]` removes only the first `"a"` column (Python's
`list.index` finds first occurrences), so the retained names `["b", "a"]`
still contain the excluded name and differ from `H` minus `E`. -/
theorem C2_counterexample :
    resolveProjection ["a", "b", "a"] [] ["a"] = .ok [1, 2] ∧
      ([1, 2].map (fun i => (["a", "b", "a"]).getD i "") = ["b", "a"]) ∧
      (["a", "b", "a"]).filter (fun h => !((["a"] : List String).contains h)) = ["b"] ∧
      ["b", "a"] ≠ ["b"] := by
  refine ⟨by rfl, by rfl, by rfl, by decide⟩

/-- C2 amended: for every duplicate-free header `H` and supplied (hence
non-empty) exclude-list `E` whose every name occurs in `H`, resolving the
projection with exclude-list `E` and empty include-list yields indices whose
header names are exactly `H` minus `E`, preserving `H`'s original relative
order. -/
theorem C2_exclude_complement (H E : List String) (hnd : H.Nodup)
    (hne : E ≠ []) (hmem : ∀ e ∈ E, e ∈ H) :
    ∃ idxs, resolveProjection H [] E = .ok idxs ∧
      idxs.map (fun i => H.getD i "") = H.filter (fun h => !(E.contains h)) := by
  have hHne : H.length ≠ 0 := by
    obtain ⟨e, he⟩ := List.exists_mem_of_ne_nil E hne
    have := hmem e he
    intro hlen
    rw [List.length_eq_zero.mp hlen] at this
    simp at this
  obtain ⟨remIdxs, hok, _⟩ := lookupIndices_ok_of_mem hmem
  refine ⟨(List.range H.length).filter (fun i => !(remIdxs.contains i)), ?_, ?_⟩
  · simp [resolveProjection, hne, hHne, hok]
  · rw [List.filter_congr (fun i hi => ?_), map_getD_filter_range H (fun h => !(E.contains h))]
    rw [contains_lookupIndices_eq hnd hok (List.mem_range.mp hi)]

/-- Witness for the amended C2 at header `["id","name","secret"]` and
exclude-list `["secret"]`. -/
theorem C2_exclude_complement_witness :
    ∃ idxs, resolveProjection ["id", "name", "secret"] [] ["secret"] = .ok idxs ∧
      idxs.map (fun i => (["id", "name", "secret"]).getD i "") =
        (["id", "name", "secret"]).filter
          (fun h => !((["secret"] : List String).contains h)) :=
  C2_exclude_complement ["id", "name", "secret"] ["secret"] (by decide) (by decide)
    (by intro e he; fin_cases he; decide)

/-! ## C3: mutually exclusive projection lists -/

/-- C3: supplying both a non-empty include-list and a non-empty exclude-list
to `set_fields` in the same call always raises (the `SyntaxError` the spec
calls a ConfigurationError), regardless of the lists' contents, and leaves
the projection settings unchanged. -/
theorem C3_set_fields_exclusive (st : CsvToMongoDB)
    (fields_needed fields_removed : List String)
    (h1 : fields_needed ≠ []) (h2 : fields_removed ≠ []) :
    set_fields st fields_needed fields_removed = (st, some mutualExclusionMsg) := by
  simp [set_fields, h1, h2]

/-- Witness for C3 at include `["a"]`, exclude `["b"]`. -/
theorem C3_set_fields_exclusive_witness :
    set_fields ⟨"", [], []⟩ ["a"] ["b"] = (⟨"", [], []⟩, some mutualExclusionMsg) :=
  C3_set_fields_exclusive ⟨"", [], []⟩ ["a"] ["b"] (by decide) (by decide)

/-! ## C4: missing include-list fields -/

/-- Checks whether `small` occurs contiguously inside `big`; used to state
that an error message does (or does not) name a field. -/
def charsStartWith : List Char → List Char → Bool
  | _, [] => true
  | [], _ :: _ => false
  | a :: as, b :: bs => a = b && charsStartWith as bs

/-- Membership of `small` as a contiguous run of `big`. -/
def charsContain : List Char → List Char → Bool
  | [], small => charsStartWith [] small
  | c :: rest, small => charsStartWith (c :: rest) small || charsContain rest small

/-- C4 as stated is refuted on include-list `["ghost"]` against header
`["id","name"]`: the run aborts (with the `ValueError` the spec maps to
FieldNotFoundError) before anything is written, but the raised error is the
fixed message `"指定的字段不存在"`, which does not name `"ghost"` — indeed the
error value is identical for a different missing field `"phantom"`, so it
names no missing field at all. -/
theorem C4_counterexample :
    insert_data ["ghost"] [] ["id", "name"] [["1", "a"]] 10000 =
        .error fieldMissingMsg ∧
      insert_data ["phantom"] [] ["id", "name"] [["1", "a"]] 10000 =
        .error fieldMissingMsg ∧
      charsContain fieldMissingMsg.toList "ghost".toList = false := by
  refine ⟨by rfl, by rfl, by rfl⟩

/-- C4 amended: for every header and every supplied (hence non-empty)
include-list containing at least one name absent from the header, the
ingestion run fails before processing any row — zero documents are written
and no partial projection result is produced — but the raised error is the
generic `ValueError("指定的字段不存在")`, which names no missing field. -/
theorem C4_missing_include_aborts (H I : List String) (rows : List (List String))
    (b : Nat) (hne : I ≠ []) (hmiss : ∃ f ∈ I, f ∉ H) :
    insert_data I [] H rows b = .error fieldMissingMsg := by
  have h := lookupIndices_error_of_missing hmiss
  simp [insert_data, resolveProjection, hne, h]

/-- Witness for the amended C4 at header `["id","name"]`, include `["ghost"]`. -/
theorem C4_missing_include_aborts_witness :
    insert_data ["ghost"] [] ["id", "name"] [["1", "a"], ["2", "b"]] 10000 =
      .error fieldMissingMsg :=
  C4_missing_include_aborts ["id", "name"] ["ghost"] [["1", "a"], ["2", "b"]] 10000
    (by decide) ⟨"ghost", by decide, by decide⟩

/-! Lemmas about `projectRow` and the row loop. -/

/-- Selecting every position of a list reproduces the list. -/
theorem map_getD_range (H : List String) :
    (List.range H.length).map (fun i => H.getD i "") = H := by
  have h := map_getD_filter_range H (fun _ => true)
  rwa [List.filter_true, List.filter_true] at h

theorem projectRow_ok {row : List String} :
    ∀ {idxs : List Nat}, (∀ i ∈ idxs, i < row.length) →
    projectRow row idxs = .ok (idxs.map (fun i => row.getD i "")) := by
  intro idxs
  induction idxs with
  | nil => intro _; rfl
  | cons i is ih =>
    intro h
    have hi : i < row.length := h i (List.mem_cons_self i is)
    have hrest := ih (fun j hj => h j (List.mem_cons_of_mem _ hj))
    simp [projectRow, List.get?_eq_getElem?, List.getElem?_eq_getElem hi, hrest,
      List.getD_eq_getElem _ _ hi]

theorem projectRow_error {row : List String} :
    ∀ {idxs : List Nat}, (∃ i ∈ idxs, row.length ≤ i) →
    projectRow row idxs = .error indexErrorMsg := by
  intro idxs
  induction idxs with
  | nil => rintro ⟨i, hi, _⟩; simp at hi
  | cons j is ih =>
    rintro ⟨i, hi, hlen⟩
    rcases List.mem_cons.mp hi with rfl | hi'
    · simp [projectRow, List.get?_eq_getElem?, List.getElem?_eq_none hlen]
    · by_cases hj : j < row.length
      · simp [projectRow, List.get?_eq_getElem?, List.getElem?_eq_getElem hj,
          ih ⟨i, hi', hlen⟩]
      · simp [projectRow, List.get?_eq_getElem?,
          List.getElem?_eq_none (Nat.le_of_not_lt hj)]

/-- Ceiling division, written the way the claims state it. -/
theorem ceil_div_eq {b : Nat} (hb : 0 < b) (n : Nat) :
    (n + b - 1) / b = n / b + (if n % b = 0 then 0 else 1) := by
  obtain ⟨q, r, hr, rfl⟩ : ∃ q r, r < b ∧ n = b * q + r :=
    ⟨n / b, n % b, Nat.mod_lt _ hb, (Nat.div_add_mod n b).symm⟩
  have hdiv : (b * q + r) / b = q := by
    rw [Nat.mul_add_div hb, Nat.div_eq_of_lt hr, Nat.add_zero]
  have hmod : (b * q + r) % b = r := by
    rw [Nat.mul_add_mod, Nat.mod_eq_of_lt hr]
  by_cases hr0 : r = 0
  · subst hr0
    have he : b * q + 0 + b - 1 = b * q + (b - 1) := by omega
    rw [he, Nat.mul_add_div hb, Nat.div_eq_of_lt (by omega), hdiv, hmod]
    simp
  · have he : b * q + r + b - 1 = b * (q + 1) + (r - 1) := by
      have : b * (q + 1) = b * q + b := by ring
      omega
    rw [he, Nat.mul_add_div hb, Nat.div_eq_of_lt (by omega), hdiv, hmod]
    simp [hr0]

/-- The buffered row loop, on rows the projection can read, appends full
batches of exactly `bsize` documents, returns the residue `mod bsize` in the
buffer, and preserves every transformed document once, in source order. -/
theorem ingestAux_ok {ph : List String} {idxs : List Nat} {b : Nat} (hb : 0 < b) :
    ∀ (rows : List (List String)) (batches : List (List Doc)) (buffer : List Doc)
      (counter : Nat),
    (∀ r ∈ rows, ∀ i ∈ idxs, i < r.length) →
    buffer.length < b →
    ∃ newBatches buffer',
      ingestAux ph idxs b rows batches buffer counter =
        .ok (batches ++ newBatches, buffer', counter + rows.length) ∧
      (∀ l ∈ newBatches, l.length = b) ∧
      buffer'.length = (buffer.length + rows.length) % b ∧
      newBatches.length = (buffer.length + rows.length) / b ∧
      newBatches.flatten ++ buffer' =
        buffer ++ rows.map (fun r => pyDict (ph.zip (idxs.map (fun i => r.getD i "")))) := by
  intro rows
  induction rows with
  | nil =>
    intro batches buffer counter _ hbuf
    refine ⟨[], buffer, ?_, by simp, ?_, ?_, by simp⟩
    · simp [ingestAux]
    · simp [Nat.mod_eq_of_lt hbuf]
    · simp [Nat.div_eq_of_lt hbuf]
  | cons r rs ih =>
    intro batches buffer counter hok hbuf
    have hrow := projectRow_ok (hok r (List.mem_cons_self r rs))
    have hok' : ∀ r' ∈ rs, ∀ i ∈ idxs, i < r'.length :=
      fun r' hr' => hok r' (List.mem_cons_of_mem _ hr')
    set doc := pyDict (ph.zip (idxs.map (fun i => r.getD i ""))) with hdoc
    have hstep : ingestAux ph idxs b (r :: rs) batches buffer counter =
        (if b ≤ (buffer ++ [doc]).length
         then ingestAux ph idxs b rs (batches ++ [buffer ++ [doc]]) [] (counter + 1)
         else ingestAux ph idxs b rs batches (buffer ++ [doc]) (counter + 1)) := by
      simp only [ingestAux]
      rw [hrow]
    have hcnt : counter + 1 + rs.length = counter + (r :: rs).length := by
      rw [List.length_cons]
      omega
    by_cases hfull : b ≤ (buffer ++ [doc]).length
    · have hlen : buffer.length + 1 = b := by
        simp at hfull
        omega
      obtain ⟨nb, buf', heq, hall, hbuflen, hnblen, hjoin⟩ :=
        ih (batches ++ [buffer ++ [doc]]) [] (counter + 1) hok' hb
      have happ : batches ++ [buffer ++ [doc]] ++ nb =
          batches ++ (buffer ++ [doc]) :: nb := by
        simp
      refine ⟨(buffer ++ [doc]) :: nb, buf', ?_, ?_, ?_, ?_, ?_⟩
      · rw [hstep, if_pos hfull, heq, happ, hcnt]
      · intro l hl
        rcases List.mem_cons.mp hl with rfl | hl'
        · simp only [List.length_append, List.length_cons, List.length_nil]
          omega
        · exact hall l hl'
      · rw [hbuflen]
        have h7 : buffer.length + (r :: rs).length = rs.length + b := by
          rw [List.length_cons]
          omega
        rw [h7, Nat.add_mod_right]
        simp
      · rw [List.length_cons, hnblen]
        have h8 : buffer.length + (r :: rs).length = rs.length + b := by
          rw [List.length_cons]
          omega
        rw [h8, Nat.add_div_right _ hb]
        simp
      · rw [List.flatten_cons, List.append_assoc, hjoin, List.map_cons]
        simp [hdoc]
    · have hlt : (buffer ++ [doc]).length < b := Nat.lt_of_not_le hfull
      obtain ⟨nb, buf', heq, hall, hbuflen, hnblen, hjoin⟩ :=
        ih batches (buffer ++ [doc]) (counter + 1) hok' hlt
      refine ⟨nb, buf', ?_, hall, ?_, ?_, ?_⟩
      · rw [hstep, if_neg hfull, heq, hcnt]
      · rw [hbuflen]
        congr 1
        simp only [List.length_append, List.length_cons, List.length_nil]
        omega
      · rw [hnblen]
        congr 1
        simp only [List.length_append, List.length_cons, List.length_nil]
        omega
      · rw [hjoin, List.map_cons]
        simp [hdoc]

/-- Running `insert_data` with no projection set: one document per row, the
batches partition the documents sequentially with every batch full except
possibly the last, and the batch count is the ceiling of rows over the
buffer size. -/
theorem insert_data_noproj {H : List String} {rows : List (List String)} {b : Nat}
    (hb : 0 < b) (hlen : ∀ r ∈ rows, r.length = H.length) :
    ∃ batches,
      insert_data [] [] H rows b = .ok (batches, rows.length) ∧
      batches.flatten = rows.map (fun r => pyDict (H.zip r)) ∧
      batches.length = (rows.length + b - 1) / b ∧
      ∀ l ∈ batches, 0 < l.length ∧ l.length ≤ b := by
  have hres : resolveProjection H [] [] = .ok (List.range H.length) := by
    simp [resolveProjection]
  have hok : ∀ r ∈ rows, ∀ i ∈ List.range H.length, i < r.length := by
    intro r hr i hi
    rw [hlen r hr]
    exact List.mem_range.mp hi
  obtain ⟨nb, buf', heq, hall, hbuflen, hnblen, hjoin⟩ :=
    @ingestAux_ok H (List.range H.length) b hb rows [] [] 0 hok hb
  have htf : rows.map
      (fun r => pyDict (H.zip ((List.range H.length).map (fun i => r.getD i "")))) =
      rows.map (fun r => pyDict (H.zip r)) := by
    apply List.map_congr_left
    intro r hr
    rw [← hlen r hr, map_getD_range r]
  have heq' : ingestAux H (List.range H.length) b rows [] [] 0 =
      .ok (nb, buf', rows.length) := by simpa using heq
  have hjoin' : nb.flatten ++ buf' = rows.map (fun r => pyDict (H.zip r)) := by
    rw [← htf]
    simpa using hjoin
  have hbuflen' : buf'.length = rows.length % b := by simpa using hbuflen
  have hnblen' : nb.length = rows.length / b := by simpa using hnblen
  refine ⟨if buf' = [] then nb else nb ++ [buf'], ?_, ?_, ?_, ?_⟩
  · simp only [insert_data, hres]
    rw [map_getD_range, heq']
  · by_cases h0 : buf' = []
    · subst h0
      simpa using hjoin'
    · rw [if_neg h0, List.flatten_append]
      simpa using hjoin'
  · rw [ceil_div_eq hb]
    by_cases h0 : buf' = []
    · have hm : rows.length % b = 0 := by
        rw [← hbuflen', h0]
        rfl
      simp [h0, hm, hnblen']
    · have hm : rows.length % b ≠ 0 := by
        rw [← hbuflen']
        intro hc
        exact h0 (List.length_eq_zero.mp hc)
      simp [h0, hm, hnblen']
  · intro l hl
    by_cases h0 : buf' = []
    · rw [if_pos h0] at hl
      have hlb := hall l hl
      exact ⟨by omega, by omega⟩
    · rw [if_neg h0] at hl
      rcases List.mem_append.mp hl with h | h
      · have hlb := hall l h
        exact ⟨by omega, by omega⟩
      · simp at h
        subst h
        have h1 : 0 < l.length := List.length_pos.mpr h0
        have h2 : l.length < b := by
          rw [hbuflen']
          exact Nat.mod_lt _ hb
        exact ⟨h1, by omega⟩

/-! ## C5: batch partitioning -/

/-- C5: with batch size `b ≥ 1` and `n` well-formed rows, the rows are
partitioned sequentially into `ceil(n/b)` bulk writes — every document
appears exactly once, in source order, with every batch non-empty and of at
most `b` documents — and in particular with `b = 3` and 7 rows exactly 3 bulk
writes occur, of sizes 3, 3, 1. -/
theorem C5_batch_partition (H : List String) (rows : List (List String)) (b : Nat)
    (hb : 0 < b) (hlen : ∀ r ∈ rows, r.length = H.length) :
    (∃ batches,
      insert_data [] [] H rows b = .ok (batches, rows.length) ∧
      batches.flatten = rows.map (fun r => pyDict (H.zip r)) ∧
      batches.length = (rows.length + b - 1) / b ∧
      ∀ l ∈ batches, 0 < l.length ∧ l.length ≤ b) ∧
    (∃ batches7,
      insert_data [] [] ["f"]
          [["1"], ["2"], ["3"], ["4"], ["5"], ["6"], ["7"]] 3 =
        .ok (batches7, 7) ∧
      batches7.map List.length = [3, 3, 1]) := by
  refine ⟨insert_data_noproj hb hlen, ?_⟩
  exact ⟨[[[("f", "1")], [("f", "2")], [("f", "3")]],
          [[("f", "4")], [("f", "5")], [("f", "6")]],
          [[("f", "7")]]], by rfl, by rfl⟩

/-- Witness for C5 at header `["f"]`, seven one-column rows, batch size 3. -/
theorem C5_batch_partition_witness :
    (∃ batches,
      insert_data [] [] ["f"]
          [["1"], ["2"], ["3"], ["4"], ["5"], ["6"], ["7"]] 3 =
        .ok (batches, (([["1"], ["2"], ["3"], ["4"], ["5"], ["6"], ["7"]]) :
            List (List String)).length) ∧
      batches.flatten =
        ([["1"], ["2"], ["3"], ["4"], ["5"], ["6"], ["7"]] :
            List (List String)).map (fun r => pyDict ((["f"]).zip r)) ∧
      batches.length =
        ((([["1"], ["2"], ["3"], ["4"], ["5"], ["6"], ["7"]]) :
            List (List String)).length + 3 - 1) / 3 ∧
      ∀ l ∈ batches, 0 < l.length ∧ l.length ≤ 3) ∧
    (∃ batches7,
      insert_data [] [] ["f"]
          [["1"], ["2"], ["3"], ["4"], ["5"], ["6"], ["7"]] 3 =
        .ok (batches7, 7) ∧
      batches7.map List.length = [3, 3, 1]) :=
  C5_batch_partition ["f"] [["1"], ["2"], ["3"], ["4"], ["5"], ["6"], ["7"]] 3
    (by decide) (by intro r hr; fin_cases hr <;> rfl)

/-! Lemmas about the embedded Python dict. -/

theorem hasKey_eq_decide (d : Doc) (k : String) :
    hasKey d k = decide (k ∈ d.map Prod.fst) := by
  simp [hasKey, List.contains]

/-- Folding `dictInsert` over pairs whose keys are fresh and mutually
distinct just appends the pairs. -/
theorem foldl_dictInsert_fresh :
    ∀ (pairs : List (String × String)) (d : Doc),
    (∀ p ∈ pairs, hasKey d p.1 = false) → (pairs.map Prod.fst).Nodup →
    pairs.foldl (fun d p => dictInsert d p.1 p.2) d = d ++ pairs := by
  intro pairs
  induction pairs with
  | nil => intro d _ _; simp
  | cons p ps ih =>
    intro d hfresh hnd
    have hp : hasKey d p.1 = false := hfresh p (List.mem_cons_self p ps)
    have hins : dictInsert d p.1 p.2 = d ++ [p] := by
      simp [dictInsert, hp]
    have hnd0 : (p.1 :: ps.map Prod.fst).Nodup := by
      rw [List.map_cons] at hnd
      exact hnd
    have hnd' := List.nodup_cons.mp hnd0
    rw [List.foldl_cons, hins, ih (d ++ [p]) ?_ hnd'.2]
    · simp
    · intro q hq
      have hqd := hfresh q (List.mem_cons_of_mem _ hq)
      have hqp : q.1 ≠ p.1 := by
        intro hc
        exact hnd'.1 (hc ▸ List.mem_map_of_mem Prod.fst hq)
      have hnot : q.1 ∉ (d ++ [p]).map Prod.fst := by
        rw [List.map_append]
        intro hc
        rcases List.mem_append.mp hc with h | h
        · have hd : q.1 ∉ d.map Prod.fst := by
            simpa [hasKey_eq_decide] using hqd
          exact hd h
        · simp at h
          exact hqp h
      simpa [hasKey_eq_decide] using hnot

/-- Building a Python dict from pairs with pairwise-distinct keys is the
identity. -/
theorem pyDict_nodup {pairs : List (String × String)}
    (h : (pairs.map Prod.fst).Nodup) : pyDict pairs = pairs := by
  have := foldl_dictInsert_fresh pairs [] (fun p _ => rfl) h
  simpa [pyDict] using this

/-! ## C7: identity ingestion -/

/-- C7: for every duplicate-free header and rows of matching length,
ingestion with no projection produces one document per row pairing each
header name with that row's raw value in header order, reading the documents
back value-by-value reproduces each row exactly, and the row counter equals
the number of rows; in particular header `["id","name"]` with rows
`[["1","a"],["2","b"]]` yields `{"id":"1","name":"a"}`,
`{"id":"2","name":"b"}` with counter 2. -/
theorem C7_no_projection_identity (H : List String) (rows : List (List String))
    (hnd : H.Nodup) (hlen : ∀ r ∈ rows, r.length = H.length) :
    (∃ batches,
      insert_data [] [] H rows 10000 = .ok (batches, rows.length) ∧
      batches.flatten = rows.map (fun r => H.zip r) ∧
      ∀ r ∈ rows, (H.zip r).map Prod.snd = r) ∧
    insert_data [] [] ["id", "name"] [["1", "a"], ["2", "b"]] 10000 =
      .ok ([[[("id", "1"), ("name", "a")], [("id", "2"), ("name", "b")]]], 2) := by
  refine ⟨?_, by rfl⟩
  obtain ⟨batches, hrun, hflat, _, _⟩ :=
    @insert_data_noproj H rows 10000 (by omega) hlen
  refine ⟨batches, hrun, ?_, ?_⟩
  · rw [hflat]
    apply List.map_congr_left
    intro r hr
    apply pyDict_nodup
    rw [List.map_fst_zip H r (by rw [hlen r hr])]
    exact hnd
  · intro r hr
    exact List.map_snd_zip H r (by rw [hlen r hr])

/-- Witness for C7 at header `["id","name"]`, rows `[["1","a"],["2","b"]]`. -/
theorem C7_no_projection_identity_witness :
    (∃ batches,
      insert_data [] [] ["id", "name"] [["1", "a"], ["2", "b"]] 10000 =
        .ok (batches, (([["1", "a"], ["2", "b"]]) : List (List String)).length) ∧
      batches.flatten =
        ([["1", "a"], ["2", "b"]] : List (List String)).map
          (fun r => (["id", "name"]).zip r) ∧
      ∀ r ∈ ([["1", "a"], ["2", "b"]] : List (List String)),
        ((["id", "name"]).zip r).map Prod.snd = r) ∧
    insert_data [] [] ["id", "name"] [["1", "a"], ["2", "b"]] 10000 =
      .ok ([[[("id", "1"), ("name", "a")], [("id", "2"), ("name", "b")]]], 2) :=
  C7_no_projection_identity ["id", "name"] [["1", "a"], ["2", "b"]]
    (by decide) (by intro r hr; fin_cases hr <;> rfl)

/-! ## C6: short rows -/

/-- A transform failure on one row propagates out of the buffered loop. -/
theorem ingestAux_error {ph : List String} {idxs : List Nat} {b : Nat} {e : String} :
    ∀ (pre : List (List String)), (∀ p ∈ pre, ∀ i ∈ idxs, i < p.length) →
    ∀ {r : List String}, projectRow r idxs = .error e →
    ∀ (suf : List (List String)) (batches : List (List Doc)) (buffer : List Doc)
      (counter : Nat),
    ingestAux ph idxs b (pre ++ r :: suf) batches buffer counter = .error e := by
  intro pre
  induction pre with
  | nil =>
    intro _ r hr suf batches buffer counter
    simp [ingestAux, hr]
  | cons p ps ih =>
    intro hok r hr suf batches buffer counter
    have hp := projectRow_ok (hok p (List.mem_cons_self p ps))
    have hok' : ∀ q ∈ ps, ∀ i ∈ idxs, i < q.length :=
      fun q hq => hok q (List.mem_cons_of_mem _ hq)
    simp only [List.cons_append, ingestAux, hp]
    split
    · exact ih hok' hr suf _ _ _
    · exact ih hok' hr suf _ _ _

/-- C6 as stated is refuted on the error's content: the same header with the
short row at position 1 and at position 2 aborts with the identical
`IndexError("list index out of range")`, whose text contains neither `"1"`
nor `"2"` — the error cannot identify the offending row's position. -/
theorem C6_counterexample :
    insert_data [] [] ["a", "b"] [["x"]] 10000 = .error indexErrorMsg ∧
      insert_data [] [] ["a", "b"] [["x", "y"], ["x"]] 10000 =
        .error indexErrorMsg ∧
      charsContain indexErrorMsg.toList "1".toList = false ∧
      charsContain indexErrorMsg.toList "2".toList = false := by
  refine ⟨by rfl, by rfl, by rfl, by rfl⟩

/-- C6 amended: for every projection setting, whatever column indices it
resolves to, and every data row with fewer fields than the resolved
projection requires (some resolved index is at least the row's length, i.e.
the row has fewer than `max(indices)+1` fields), the run aborts — no
document is emitted for that row or any later row, and the row is neither
padded nor truncated — but the error is the bare
`IndexError("list index out of range")`, which does not identify the
offending row's position. -/
theorem C6_short_row_aborts (sel rem H : List String)
    (pre suf : List (List String)) (r : List String) (b : Nat)
    (idxs : List Nat)
    (hres : resolveProjection H sel rem = .ok idxs)
    (hpre : ∀ p ∈ pre, ∀ i ∈ idxs, i < p.length)
    (hshort : ∃ i ∈ idxs, r.length ≤ i) :
    insert_data sel rem H (pre ++ r :: suf) b = .error indexErrorMsg := by
  have hrow : projectRow r idxs = .error indexErrorMsg :=
    projectRow_error hshort
  simp only [insert_data, hres]
  rw [ingestAux_error pre hpre hrow suf [] [] 0]

/-- Witness for the amended C6 under an include-projection: header
`["a","b"]` with include-list `["b"]` resolves to index 1; the first row has
both fields, the second row only one, so the run aborts. -/
theorem C6_short_row_aborts_witness :
    insert_data ["b"] [] ["a", "b"] ([["x", "y"]] ++ ["x"] :: []) 10000 =
      .error indexErrorMsg :=
  C6_short_row_aborts ["b"] [] ["a", "b"] [["x", "y"]] [] ["x"] 10000 [1]
    (by rfl) (by decide) ⟨1, by decide, by decide⟩

/-! ## C8: projection settings invariant -/

/-- C8 as stated is refuted: two successive successful `set_fields` calls —
first an include-list, then an exclude-list — leave BOTH `selected_fields`
and `removed_fields` non-empty, because setting one list does not clear the
other. -/
theorem C8_counterexample :
    (set_fields ⟨"", [], []⟩ ["a"] []).2 = none ∧
      (set_fields (set_fields ⟨"", [], []⟩ ["a"] []).1 [] ["b"]).2 = none ∧
      (set_fields (set_fields ⟨"", [], []⟩ ["a"] []).1 [] ["b"]).1.selected_fields
        = ["a"] ∧
      (set_fields (set_fields ⟨"", [], []⟩ ["a"] []).1 [] ["b"]).1.removed_fields
        = ["b"] := by
  refine ⟨by rfl, by rfl, by rfl, by rfl⟩

/-- C8 amended: the two lists CAN be simultaneously non-empty after
successive `set_fields` calls, but at most one setting is ever in effect:
whenever the include-list is non-empty, the run's outcome is independent of
the exclude-list, which `insert_data` ignores entirely. -/
theorem C8_include_precedence (sel rem rem' H : List String)
    (rows : List (List String)) (b : Nat) (hne : sel ≠ []) :
    insert_data sel rem H rows b = insert_data sel rem' H rows b := by
  simp [insert_data, resolveProjection, hne]

/-- Witness for the amended C8: with include `["a"]` set, exclude `["zzz"]`
and exclude `[]` produce identical runs. -/
theorem C8_include_precedence_witness :
    insert_data ["a"] ["zzz"] ["a", "b"] [["1", "2"]] 10000 =
      insert_data ["a"] [] ["a", "b"] [["1", "2"]] 10000 :=
  C8_include_precedence ["a"] ["zzz"] [] ["a", "b"] [["1", "2"]] 10000 (by decide)

/-! ## C9: no projection state leaks across collections -/

/-- C9: every result that a multi-collection `auto_insert` run produces for
its `k`-th collection is exactly `insert_data` applied to the object's
initial projection settings and that collection's own header and rows: the
runs read but never write the projection fields, so nothing carries over
from one collection's run into another's documents. -/
theorem C9_no_projection_leak :
    ∀ (cols : List (String × List String × List (List String)))
      (st : CsvToMongoDB) (k : Nat) (res : Except String (List (List Doc) × Nat)),
    (auto_insert st cols).2[k]? = some res →
    ∃ c, cols[k]? = some c ∧
      res = insert_data st.selected_fields st.removed_fields c.2.1 c.2.2 10000 := by
  intro cols
  induction cols with
  | nil =>
    intro st k res h
    simp [auto_insert] at h
  | cons c rest ih =>
    intro st k res h
    obtain ⟨name, header, rows⟩ := c
    cases hrun : insert_data st.selected_fields st.removed_fields header rows 10000 with
    | error e =>
      have hau : auto_insert st ((name, header, rows) :: rest) =
          ({ st with target_col_name := name }, [.error e]) := by
        simp [auto_insert, hrun]
      rw [hau] at h
      cases k with
      | zero =>
        simp at h
        exact ⟨(name, header, rows), by simp, by rw [← h, hrun]⟩
      | succ k' => simp at h
    | ok r =>
      have hau : auto_insert st ((name, header, rows) :: rest) =
          ((auto_insert { st with target_col_name := name } rest).1,
           .ok r :: (auto_insert { st with target_col_name := name } rest).2) := by
        simp [auto_insert, hrun]
      rw [hau] at h
      cases k with
      | zero =>
        simp at h
        exact ⟨(name, header, rows), by simp, by rw [← h, hrun]⟩
      | succ k' =>
        simp at h
        obtain ⟨c, hc, hres⟩ := ih { st with target_col_name := name } k' res h
        exact ⟨c, by simpa using hc, hres⟩

/-- Witness for C9: second collection of a two-collection run with an
include-list set; its documents come from its own header and rows with the
original settings. -/
theorem C9_no_projection_leak_witness :
    ∃ c, (([("c1", ["id", "x"], [["1", "u"]]),
           ("c2", ["id", "y"], [["2", "v"]])] :
            List (String × List String × List (List String))))[1]? = some c ∧
      (Except.ok ([[[("id", "2")]]], 1) :
          Except String (List (List Doc) × Nat)) =
        insert_data (CsvToMongoDB.mk "" ["id"] []).selected_fields
          (CsvToMongoDB.mk "" ["id"] []).removed_fields c.2.1 c.2.2 10000 :=
  C9_no_projection_leak
    [("c1", ["id", "x"], [["1", "u"]]), ("c2", ["id", "y"], [["2", "v"]])]
    (CsvToMongoDB.mk "" ["id"] []) 1 (Except.ok ([[[("id", "2")]]], 1)) (by rfl)

/-! Lookup lemmas for the embedded Python dict: the value stored under a key
is the value of the LAST pair carrying that key, found by scanning the
reversed pair list. -/

theorem pyLookup_append (a b : Doc) (k : String) :
    pyLookup (a ++ b) k =
      match pyLookup a k with
      | some v => some v
      | none => pyLookup b k := by
  induction a with
  | nil => simp [pyLookup]
  | cons p rest ih =>
    obtain ⟨k', v⟩ := p
    by_cases h : k' = k
    · simp [pyLookup, h]
    · simp [pyLookup, h, ih]

theorem pyLookup_none_of_hasKey_false {d : Doc} {k : String}
    (h : hasKey d k = false) : pyLookup d k = none := by
  induction d with
  | nil => rfl
  | cons p rest ih =>
    obtain ⟨k', v⟩ := p
    have hnot : k ∉ ((k', v) :: rest).map Prod.fst := by
      simpa [hasKey_eq_decide] using h
    simp at hnot
    have h1 : k' ≠ k := fun hc => hnot.1 hc.symm
    have h2 : hasKey rest k = false := by
      simp [hasKey_eq_decide, hnot.2]
    simp [pyLookup, h1, ih h2]

theorem pyLookup_map_update_self {k v : String} :
    ∀ {d : Doc}, hasKey d k = true →
    pyLookup (d.map (fun p => if p.1 = k then (k, v) else p)) k = some v := by
  intro d
  induction d with
  | nil => intro h; simp [hasKey] at h
  | cons p rest ih =>
    intro h
    obtain ⟨a, b⟩ := p
    by_cases hak : a = k
    · rw [List.map_cons,
        show (if ((a : String), b).1 = k then (k, v) else (a, b)) = (k, v)
          from by simp [hak]]
      simp [pyLookup]
    · have hmem : k ∈ ((a, b) :: rest).map Prod.fst := by
        simpa [hasKey_eq_decide] using h
      simp at hmem
      have h2 : hasKey rest k = true := by
        rcases hmem with h' | h'
        · exact absurd h'.symm hak
        · simpa [hasKey_eq_decide] using h'
      rw [List.map_cons,
        show (if ((a : String), b).1 = k then (k, v) else (a, b)) = (a, b)
          from by simp [hak]]
      simp [pyLookup, hak, ih h2]

theorem pyLookup_map_update_other {k v k' : String} (hne : k' ≠ k) :
    ∀ (d : Doc),
    pyLookup (d.map (fun p => if p.1 = k then (k, v) else p)) k' = pyLookup d k' := by
  intro d
  induction d with
  | nil => rfl
  | cons p rest ih =>
    obtain ⟨a, b⟩ := p
    by_cases hak : a = k
    · rw [List.map_cons,
        show (if ((a : String), b).1 = k then (k, v) else (a, b)) = (k, v)
          from by simp [hak]]
      have h1 : ¬(k = k') := fun hc => hne hc.symm
      have h2 : ¬(a = k') := by
        rw [hak]
        exact h1
      simp [pyLookup, h1, h2, ih]
    · rw [List.map_cons,
        show (if ((a : String), b).1 = k then (k, v) else (a, b)) = (a, b)
          from by simp [hak]]
      by_cases hak' : a = k'
      · simp [pyLookup, hak']
      · simp [pyLookup, hak', ih]

theorem pyLookup_dictInsert_self (d : Doc) (k v : String) :
    pyLookup (dictInsert d k v) k = some v := by
  by_cases h : hasKey d k
  · rw [dictInsert, if_pos h]
    exact pyLookup_map_update_self h
  · have h' : hasKey d k = false := by simpa using h
    rw [dictInsert, if_neg (by simp [h']), pyLookup_append,
      pyLookup_none_of_hasKey_false h']
    simp [pyLookup]

theorem pyLookup_dictInsert_other {k k' : String} (hne : k' ≠ k) (d : Doc)
    (v : String) : pyLookup (dictInsert d k v) k' = pyLookup d k' := by
  by_cases h : hasKey d k
  · rw [dictInsert, if_pos h]
    exact pyLookup_map_update_other hne d
  · rw [dictInsert, if_neg h, pyLookup_append]
    cases hl : pyLookup d k' with
    | some w => simp
    | none =>
      have h1 : ¬(k = k') := fun hc => hne hc.symm
      simp [pyLookup, h1]

theorem pyLookup_foldl :
    ∀ (pairs : List (String × String)) (d : Doc) (k : String),
    pyLookup (pairs.foldl (fun d p => dictInsert d p.1 p.2) d) k =
      match pyLookup pairs.reverse k with
      | some v => some v
      | none => pyLookup d k := by
  intro pairs
  induction pairs with
  | nil => intro d k; simp [pyLookup]
  | cons p ps ih =>
    intro d k
    rw [List.foldl_cons, ih, List.reverse_cons, pyLookup_append]
    cases hrev : pyLookup ps.reverse k with
    | some w => simp
    | none =>
      obtain ⟨a, b⟩ := p
      by_cases hak : a = k
      · subst hak
        simp [pyLookup, pyLookup_dictInsert_self]
      · simp [pyLookup, hak,
          pyLookup_dictInsert_other (fun hc => hak hc.symm) d b]

/-- Looking a key up in a Python dict built from a pair list finds the value
of the key's last occurrence: the first match in the reversed pair list. -/
theorem pyLookup_pyDict (pairs : List (String × String)) (k : String) :
    pyLookup (pyDict pairs) k = pyLookup pairs.reverse k := by
  rw [pyDict, pyLookup_foldl]
  cases pyLookup pairs.reverse k with
  | some v => rfl
  | none => rfl

/-! Key-set lemmas for the embedded Python dict: the keys are the distinct
input keys in first-occurrence order. -/

/-- The distinct elements of a list in first-occurrence order, skipping any
already in `seen`. -/
def firstDedupAux (seen : List String) : List String → List String
  | [] => []
  | k :: rest =>
    if seen.contains k then firstDedupAux seen rest
    else k :: firstDedupAux (k :: seen) rest

theorem keys_dictInsert (d : Doc) (k v : String) :
    (dictInsert d k v).map Prod.fst =
      if hasKey d k then d.map Prod.fst else d.map Prod.fst ++ [k] := by
  by_cases h : hasKey d k
  · rw [dictInsert, if_pos h, if_pos h, List.map_map]
    apply List.map_congr_left
    intro p _
    by_cases hp : p.1 = k
    · simp [hp]
    · simp [hp]
  · rw [dictInsert, if_neg h, if_neg h]
    simp

theorem firstDedupAux_congr :
    ∀ (l : List String) (s1 s2 : List String),
    (∀ x, x ∈ s1 ↔ x ∈ s2) → firstDedupAux s1 l = firstDedupAux s2 l := by
  intro l
  induction l with
  | nil => intro s1 s2 _; rfl
  | cons k rest ih =>
    intro s1 s2 hmem
    by_cases h : k ∈ s1
    · have h2 : k ∈ s2 := (hmem k).mp h
      have hc1 : s1.contains k = true := by simpa [List.contains] using h
      have hc2 : s2.contains k = true := by simpa [List.contains] using h2
      simp only [firstDedupAux, hc1, hc2, if_true]
      exact ih s1 s2 hmem
    · have h2 : k ∉ s2 := fun hc => h ((hmem k).mpr hc)
      have hc1 : s1.contains k = false := by simpa [List.contains] using h
      have hc2 : s2.contains k = false := by simpa [List.contains] using h2
      simp only [firstDedupAux, hc1, hc2, Bool.false_eq_true, if_false]
      rw [ih (k :: s1) (k :: s2) (by intro x; simp [hmem x])]

theorem keys_foldl :
    ∀ (pairs : List (String × String)) (d : Doc),
    ((pairs.foldl (fun d p => dictInsert d p.1 p.2) d).map Prod.fst) =
      d.map Prod.fst ++ firstDedupAux (d.map Prod.fst) (pairs.map Prod.fst) := by
  intro pairs
  induction pairs with
  | nil => intro d; simp [firstDedupAux]
  | cons p ps ih =>
    intro d
    rw [List.foldl_cons, ih, keys_dictInsert, List.map_cons]
    by_cases h : hasKey d p.1
    · rw [if_pos h]
      have hc : (d.map Prod.fst).contains p.1 = true := h
      rw [show firstDedupAux (d.map Prod.fst) (p.1 :: ps.map Prod.fst) =
          firstDedupAux (d.map Prod.fst) (ps.map Prod.fst) from by
        simp only [firstDedupAux, hc, if_true]]
    · rw [if_neg h]
      have h' : hasKey d p.1 = false := by simpa using h
      have hc : (d.map Prod.fst).contains p.1 = false := h'
      rw [show firstDedupAux (d.map Prod.fst) (p.1 :: ps.map Prod.fst) =
          p.1 :: firstDedupAux (p.1 :: d.map Prod.fst) (ps.map Prod.fst) from by
        simp only [firstDedupAux, hc, Bool.false_eq_true, if_false]]
      rw [firstDedupAux_congr (ps.map Prod.fst) (d.map Prod.fst ++ [p.1])
        (p.1 :: d.map Prod.fst) (by intro x; simp [or_comm])]
      simp

theorem keys_pyDict (pairs : List (String × String)) :
    (pyDict pairs).map Prod.fst = firstDedupAux [] (pairs.map Prod.fst) := by
  have h := keys_foldl pairs []
  simpa [pyDict] using h

theorem mem_firstDedupAux :
    ∀ (l : List String) (seen : List String) (x : String),
    x ∈ firstDedupAux seen l ↔ x ∈ l ∧ x ∉ seen := by
  intro l
  induction l with
  | nil => intro seen x; simp [firstDedupAux]
  | cons k rest ih =>
    intro seen x
    by_cases h : k ∈ seen
    · have hc : seen.contains k = true := by simpa [List.contains] using h
      rw [show firstDedupAux seen (k :: rest) = firstDedupAux seen rest from by
        simp only [firstDedupAux, hc, if_true]]
      rw [ih seen x]
      constructor
      · rintro ⟨hx, hxs⟩
        exact ⟨List.mem_cons_of_mem _ hx, hxs⟩
      · rintro ⟨hx, hxs⟩
        rcases List.mem_cons.mp hx with rfl | hx'
        · exact absurd h hxs
        · exact ⟨hx', hxs⟩
    · have hc : seen.contains k = false := by simpa [List.contains] using h
      rw [show firstDedupAux seen (k :: rest) =
          k :: firstDedupAux (k :: seen) rest from by
        simp only [firstDedupAux, hc, Bool.false_eq_true, if_false]]
      constructor
      · intro hx
        rcases List.mem_cons.mp hx with rfl | hx'
        · exact ⟨List.mem_cons_self x rest, h⟩
        · obtain ⟨h1, h2⟩ := (ih (k :: seen) x).mp hx'
          refine ⟨List.mem_cons_of_mem _ h1, fun hc' => h2 (List.mem_cons_of_mem _ hc')⟩
      · rintro ⟨hx, hxs⟩
        rcases List.mem_cons.mp hx with rfl | hx'
        · exact List.mem_cons_self x _
        · by_cases hxk : x = k
          · exact hxk ▸ List.mem_cons_self k _
          · refine List.mem_cons_of_mem _ ((ih (k :: seen) x).mpr ⟨hx', ?_⟩)
            intro hc'
            rcases List.mem_cons.mp hc' with h' | h'
            · exact hxk h'
            · exact hxs h'

theorem firstDedupAux_nodup :
    ∀ (l seen : List String), (firstDedupAux seen l).Nodup := by
  intro l
  induction l with
  | nil => intro seen; simp [firstDedupAux]
  | cons k rest ih =>
    intro seen
    by_cases h : k ∈ seen
    · have hc : seen.contains k = true := by simpa [List.contains] using h
      rw [show firstDedupAux seen (k :: rest) = firstDedupAux seen rest from by
        simp only [firstDedupAux, hc, if_true]]
      exact ih seen
    · have hc : seen.contains k = false := by simpa [List.contains] using h
      rw [show firstDedupAux seen (k :: rest) =
          k :: firstDedupAux (k :: seen) rest from by
        simp only [firstDedupAux, hc, Bool.false_eq_true, if_false]]
      refine List.nodup_cons.mpr ⟨?_, ih (k :: seen)⟩
      intro hc'
      exact ((mem_firstDedupAux rest (k :: seen) k).mp hc').2
        (List.mem_cons_self k seen)

theorem firstDedupAux_length_le :
    ∀ (l seen : List String), (firstDedupAux seen l).length ≤ l.length := by
  intro l
  induction l with
  | nil => intro seen; simp [firstDedupAux]
  | cons k rest ih =>
    intro seen
    by_cases h : seen.contains k
    · rw [show firstDedupAux seen (k :: rest) = firstDedupAux seen rest from by
        simp only [firstDedupAux, h, if_true]]
      have := ih seen
      rw [List.length_cons]
      omega
    · have hc : seen.contains k = false := by simpa using h
      rw [show firstDedupAux seen (k :: rest) =
          k :: firstDedupAux (k :: seen) rest from by
        simp only [firstDedupAux, hc, Bool.false_eq_true, if_false]]
      have := ih (k :: seen)
      rw [List.length_cons, List.length_cons]
      omega

theorem firstDedupAux_length_lt_of_seen :
    ∀ (l seen : List String), (∃ x ∈ l, x ∈ seen) →
    (firstDedupAux seen l).length < l.length := by
  intro l
  induction l with
  | nil =>
    rintro seen ⟨x, hx, _⟩
    simp at hx
  | cons k rest ih =>
    rintro seen ⟨x, hx, hxs⟩
    by_cases h : k ∈ seen
    · have hc : seen.contains k = true := by simpa [List.contains] using h
      rw [show firstDedupAux seen (k :: rest) = firstDedupAux seen rest from by
        simp only [firstDedupAux, hc, if_true]]
      have := firstDedupAux_length_le rest seen
      rw [List.length_cons]
      omega
    · have hc : seen.contains k = false := by simpa [List.contains] using h
      rw [show firstDedupAux seen (k :: rest) =
          k :: firstDedupAux (k :: seen) rest from by
        simp only [firstDedupAux, hc, Bool.false_eq_true, if_false]]
      rcases List.mem_cons.mp hx with rfl | hx'
      · exact absurd hxs h
      · have := ih (k :: seen) ⟨x, hx', List.mem_cons_of_mem _ hxs⟩
        rw [List.length_cons, List.length_cons]
        omega

theorem firstDedupAux_length_lt_of_dup :
    ∀ (l : List String), ¬ l.Nodup → ∀ seen,
    (firstDedupAux seen l).length < l.length := by
  intro l
  induction l with
  | nil => intro h; exact absurd List.nodup_nil h
  | cons k rest ih =>
    intro h seen
    by_cases hks : k ∈ seen
    · have hc : seen.contains k = true := by simpa [List.contains] using hks
      rw [show firstDedupAux seen (k :: rest) = firstDedupAux seen rest from by
        simp only [firstDedupAux, hc, if_true]]
      have := firstDedupAux_length_le rest seen
      rw [List.length_cons]
      omega
    · have hc : seen.contains k = false := by simpa [List.contains] using hks
      rw [show firstDedupAux seen (k :: rest) =
          k :: firstDedupAux (k :: seen) rest from by
        simp only [firstDedupAux, hc, Bool.false_eq_true, if_false]]
      by_cases hkr : k ∈ rest
      · have := firstDedupAux_length_lt_of_seen rest (k :: seen)
          ⟨k, hkr, List.mem_cons_self k seen⟩
        rw [List.length_cons, List.length_cons]
        omega
      · have hrest : ¬ rest.Nodup := fun hn => h (List.nodup_cons.mpr ⟨hkr, hn⟩)
        have := ih hrest (k :: seen)
        rw [List.length_cons, List.length_cons]
        omega

/-! ## C10: duplicate header names -/

/-- C10: with a header containing duplicate names, no projection set and a
row of matching length, the produced document has exactly one entry per
distinct header name (its key list is duplicate-free and covers exactly the
header's names), each key is bound to the value of the LAST column bearing
that name (lookup scans the reversed column/value pairs), the earlier
same-named values are discarded so reading the document's values back cannot
reproduce the row; in particular header `["a","a"]` with row `["1","2"]`
yields the single-entry document `{"a": "2"}`. -/
theorem C10_duplicate_header_last_wins (H r : List String)
    (hdup : ¬ H.Nodup) (hlen : r.length = H.length) :
    ((pyDict (H.zip r)).map Prod.fst).Nodup ∧
    (∀ k, k ∈ (pyDict (H.zip r)).map Prod.fst ↔ k ∈ H) ∧
    (∀ k, pyLookup (pyDict (H.zip r)) k = pyLookup ((H.zip r).reverse) k) ∧
    (pyDict (H.zip r)).map Prod.snd ≠ r ∧
    pyDict ((["a", "a"]).zip ["1", "2"]) = [("a", "2")] := by
  have hfst : (H.zip r).map Prod.fst = H :=
    List.map_fst_zip H r (by omega)
  have hkeys : (pyDict (H.zip r)).map Prod.fst = firstDedupAux [] H := by
    rw [keys_pyDict, hfst]
  refine ⟨?_, ?_, ?_, ?_, by rfl⟩
  · rw [hkeys]
    exact firstDedupAux_nodup H []
  · intro k
    rw [hkeys, mem_firstDedupAux H [] k]
    simp
  · intro k
    exact pyLookup_pyDict (H.zip r) k
  · intro hceq
    have hlt : (firstDedupAux [] H).length < H.length :=
      firstDedupAux_length_lt_of_dup H hdup []
    have h1 : ((pyDict (H.zip r)).map Prod.snd).length = r.length := by
      rw [hceq]
    have h2 : ((pyDict (H.zip r)).map Prod.snd).length =
        (firstDedupAux [] H).length := by
      rw [List.length_map, ← List.length_map (pyDict (H.zip r)) Prod.fst, hkeys]
    omega

/-- Witness for C10 at header `["a","a"]`, row `["1","2"]`. -/
theorem C10_duplicate_header_last_wins_witness :
    ((pyDict ((["a", "a"]).zip ["1", "2"])).map Prod.fst).Nodup ∧
    (∀ k, k ∈ (pyDict ((["a", "a"]).zip ["1", "2"])).map Prod.fst ↔
      k ∈ ["a", "a"]) ∧
    (∀ k, pyLookup (pyDict ((["a", "a"]).zip ["1", "2"])) k =
      pyLookup (((["a", "a"]).zip ["1", "2"]).reverse) k) ∧
    (pyDict ((["a", "a"]).zip ["1", "2"])).map Prod.snd ≠ ["1", "2"] ∧
    pyDict ((["a", "a"]).zip ["1", "2"]) = [("a", "2")] :=
  C10_duplicate_header_last_wins ["a", "a"] ["1", "2"] (by decide) (by decide)

end DataStore
